import Mathlib

/-!
Verification of the event-driven, buffered job-queue subsystem of the
eco-mentor repository: the Elasticsearch plugin's event subscriptions
(`src/packages/elasticsearch-plugin/src/plugin.ts`), the
`SearchJobBufferService` orchestrator (`src/unnamed/part_004`), and the
job-buffer / registry / reducer contracts described by the specification.
-/

namespace EcoMentor

/-! ## Data model: zones, channels, tax rates, catalog entities, jobs -/

/-- A tax zone, identified by its id (ids are modelled as naturals). -/
structure Zone where
  id : Nat
deriving DecidableEq, Repr

/-- A tax rate; only its zone is relevant to the event subscriptions. -/
structure TaxRate where
  zone : Zone
deriving DecidableEq, Repr

/-- A channel; only its (possibly absent) default tax zone is relevant. -/
structure Channel where
  defaultTaxZone : Option Zone
deriving DecidableEq, Repr

/-- The entity carried by a `CatalogModificationEvent`: the plugin's handler
distinguishes `Product` and `ProductVariant` instances from everything else
(the `instanceof` checks in `plugin.ts`). -/
inductive CatalogEntity where
  | product (entityId : Nat)
  | productVariant (entityId : Nat)
  | other (description : String)
deriving DecidableEq, Repr

/-- Job descriptors produced by the three event subscriptions in
`ElasticsearchPlugin.onVendureBootstrap`. -/
inductive SearchJob where
  | updateProductOrVariant (entity : CatalogEntity)
  | updateVariantsById (variantIds : List Nat)
  | reindex
deriving DecidableEq, Repr

/-- Embedding of `idsAreEqual` from the core utilities: id equality. -/
def idsAreEqual (a b : Nat) : Bool :=
  a == b

/-! ## Event subscriptions (`ElasticsearchPlugin.onVendureBootstrap`) -/

/-- Embedding of the `CatalogModificationEvent` subscription: only a
`Product` or `ProductVariant` entity triggers a single-entity index update
(`updateProductOrVariant`); any other entity produces no job. -/
def catalogModificationHandler (entity : CatalogEntity) : Option SearchJob :=
  match entity with
  | .product _ => some (.updateProductOrVariant entity)
  | .productVariant _ => some (.updateProductOrVariant entity)
  | .other _ => none

/-- Embedding of the `CollectionModificationEvent` subscription: submits an
index-update job scoped to the event's variant-id set. -/
def collectionModificationHandler (productVariantIds : List Nat) : Option SearchJob :=
  some (.updateVariantsById productVariantIds)

/-- Embedding of the `TaxRateModificationEvent` subscription: submits a
full-reindex job exactly when the channel has a default tax zone and the
changed tax rate's zone has that zone's id. -/
def taxRateModificationHandler (channel : Channel) (taxRate : TaxRate) : Option SearchJob :=
  match channel.defaultTaxZone with
  | none => none
  | some z => if idsAreEqual z.id taxRate.zone.id then some .reindex else none

/-- The three domain event kinds the plugin subscribes to. -/
inductive DomainEvent where
  | catalogModification (entity : CatalogEntity)
  | collectionModification (productVariantIds : List Nat)
  | taxRateModification (channel : Channel) (taxRate : TaxRate)
deriving DecidableEq, Repr

/-- Dispatch of a domain event to its subscription handler; the resulting
job descriptor (if any) is what the handler submits. -/
def handleEvent : DomainEvent → Option SearchJob
  | .catalogModification entity => catalogModificationHandler entity
  | .collectionModification ids => collectionModificationHandler ids
  | .taxRateModification ch tr => taxRateModificationHandler ch tr

/-! ## `SearchJobBufferService` (src/unnamed/part_004) -/

/-- Embedding of `SearchJobBufferService.getPendingSearchUpdates`: returns 0
when `bufferUpdates` is off; otherwise the size-map entries for the two
buffer identities are summed with a missing entry read as 0 (the `?? 0`
fallbacks in the source). -/
def getPendingSearchUpdates (bufferUpdates : Bool) (bufferSizes : String → Option Nat)
    (searchIndexBufferId collectionBufferId : String) : Nat :=
  if !bufferUpdates then 0
  else (bufferSizes searchIndexBufferId).getD 0 + (bufferSizes collectionBufferId).getD 0

/-- Observable actions of `runPendingSearchUpdates`, in execution order:
flushing the collection-filter buffer, awaiting the resulting subscribable
jobs (with the poll interval and timeout passed to `updates`), and flushing
the index-update buffer. -/
inductive RunAction where
  | flushCollectionBuffer
  | awaitJobs (jobCount : Nat) (pollInterval : Nat) (timeoutMs : Nat)
  | flushIndexBuffer
deriving DecidableEq, Repr

/-- Embedding of `SearchJobBufferService.runPendingSearchUpdates` as the
ordered trace of its actions, given the configuration flag, whether the
queue strategy is inspectable, and the number of jobs produced by the
collection-buffer flush.  The source returns immediately when
`bufferUpdates` is off; otherwise it flushes the collection buffer, then,
if that produced jobs and the strategy is inspectable, awaits every
resulting job with `pollInterval` 500 and `timeoutMs` 3 * 60 * 1000, and
finally flushes the search-index buffer. -/
def runPendingSearchUpdates (bufferUpdates inspectableStrategy : Bool)
    (collectionFilterJobCount : Nat) : List RunAction :=
  if !bufferUpdates then []
  else
    [RunAction.flushCollectionBuffer] ++
      (if collectionFilterJobCount != 0 && inspectableStrategy then
        [RunAction.awaitJobs collectionFilterJobCount 500 (3 * 60 * 1000)]
      else []) ++
    [RunAction.flushIndexBuffer]

/-! ## Claims about the event subscriptions and the orchestrator -/

/-- C7: a tax-rate-modified event submits a job iff the changed rate's zone
is the channel's configured default tax zone, and the only job it can
submit is the full-reindex job; any other zone yields no job. -/
theorem taxRate_reindex_iff_defaultZone (ch : Channel) (tr : TaxRate) :
    (taxRateModificationHandler ch tr = some SearchJob.reindex ↔
      ∃ z, ch.defaultTaxZone = some z ∧ z.id = tr.zone.id) ∧
    (∀ j, taxRateModificationHandler ch tr = some j → j = SearchJob.reindex) := by
  cases hz : ch.defaultTaxZone with
  | none =>
    constructor
    · simp [taxRateModificationHandler, hz]
    · intro j hj
      simp [taxRateModificationHandler, hz] at hj
  | some z =>
    by_cases heq : z.id = tr.zone.id
    · constructor
      · simp [taxRateModificationHandler, hz, idsAreEqual, heq]
      · intro j hj
        simp [taxRateModificationHandler, hz, idsAreEqual, heq] at hj
        exact hj.symm
    · constructor
      · simp [taxRateModificationHandler, hz, idsAreEqual, heq]
      · intro j hj
        simp [taxRateModificationHandler, hz, idsAreEqual, heq] at hj

/-- Witness for C7 at a concrete channel and tax rate: when the default tax
zone (id 5) matches the rate's zone, the reindex job is produced. -/
theorem taxRate_reindex_iff_defaultZone_witness :
    taxRateModificationHandler ⟨some ⟨5⟩⟩ ⟨⟨5⟩⟩ = some SearchJob.reindex :=
  (taxRate_reindex_iff_defaultZone ⟨some ⟨5⟩⟩ ⟨⟨5⟩⟩).1.mpr ⟨⟨5⟩, rfl, rfl⟩

/-- C10: a catalog-modification event whose entity is neither a `Product`
nor a `ProductVariant` produces no job, while a `Product` or
`ProductVariant` entity produces exactly the single-entity update job. -/
theorem catalog_handler_only_product_or_variant (s : String) (n : Nat) :
    catalogModificationHandler (.other s) = none ∧
    catalogModificationHandler (.product n) =
      some (.updateProductOrVariant (.product n)) ∧
    catalogModificationHandler (.productVariant n) =
      some (.updateProductOrVariant (.productVariant n)) :=
  ⟨rfl, rfl, rfl⟩

/-- C8: `getPendingSearchUpdates` is 0 when buffering is off, and otherwise
is the sum of the two buffers' sizes from the size map, a missing entry
contributing 0. -/
theorem getPendingSearchUpdates_spec (bufferSizes : String → Option Nat)
    (idxId colId : String) :
    getPendingSearchUpdates false bufferSizes idxId colId = 0 ∧
    getPendingSearchUpdates true bufferSizes idxId colId =
      (bufferSizes idxId).getD 0 + (bufferSizes colId).getD 0 ∧
    (bufferSizes idxId = none →
      getPendingSearchUpdates true bufferSizes idxId colId = (bufferSizes colId).getD 0) ∧
    (bufferSizes colId = none →
      getPendingSearchUpdates true bufferSizes idxId colId = (bufferSizes idxId).getD 0) := by
  refine ⟨rfl, rfl, ?_, ?_⟩
  · intro h; simp [getPendingSearchUpdates, h]
  · intro h; simp [getPendingSearchUpdates, h]

/-- Witness for C8 at a concrete size map with the index-buffer entry
missing: the pending count is the collection buffer's size. -/
theorem getPendingSearchUpdates_spec_witness :
    getPendingSearchUpdates true
      (fun s => if s = "collection-filter" then some 4 else none)
      "update-search-index" "collection-filter" = 4 := by
  have h := (getPendingSearchUpdates_spec
    (fun s => if s = "collection-filter" then some 4 else none)
    "update-search-index" "collection-filter").2.2.1 (by decide)
  simpa using h

/-- C1: with buffering enabled, the orchestrator flushes the
collection-filter buffer first and flushes the index-update buffer last;
when the strategy is inspectable and the collection flush produced at
least one job, it awaits all of those jobs (poll interval 500ms, timeout
180000ms = 3 minutes) strictly between the two flushes; when the strategy
is not inspectable, or no job was produced, the two flushes happen in the
same order with no wait. -/
theorem runPendingSearchUpdates_ordering (n : Nat) :
    runPendingSearchUpdates true true (n + 1) =
      [RunAction.flushCollectionBuffer,
        RunAction.awaitJobs (n + 1) 500 180000,
        RunAction.flushIndexBuffer] ∧
    runPendingSearchUpdates true false n =
      [RunAction.flushCollectionBuffer, RunAction.flushIndexBuffer] ∧
    runPendingSearchUpdates true true 0 =
      [RunAction.flushCollectionBuffer, RunAction.flushIndexBuffer] := by
  refine ⟨?_, ?_, rfl⟩
  · simp [runPendingSearchUpdates]
  · simp [runPendingSearchUpdates]

/-- C9: with buffering disabled, `runPendingSearchUpdates` is a no-op: its
action trace is empty, so no interpretation of the actions (over any state
type) can change any state, and in particular no flush happens and no job
is submitted. -/
theorem runPendingSearchUpdates_disabled_noop (inspectableStrategy : Bool) (n : Nat) :
    runPendingSearchUpdates false inspectableStrategy n = [] ∧
    ∀ {α : Type} (f : α → RunAction → α) (st : α),
      (runPendingSearchUpdates false inspectableStrategy n).foldl f st = st := by
  refine ⟨rfl, ?_⟩
  intro α f st
  rfl

/-! ## Job buffer: atomic drain and flush (modelled from the spec)

The `JobBuffer` storage and the registry's flush coordinator are not among
the provided sources (only their callers in `SearchJobBufferService` are),
so they are modelled from the specification's words. -/

/-- An atomic operation on a buffer's held collection: a producer appends a
job, or a flush performs the single atomic drain (swap the held collection
for an empty one; the swapped-out copy becomes the flushed batch).  Jobs
are modelled by their ids. -/
inductive BufferOp where
  | add (job : Nat)
  | drain
deriving DecidableEq, Repr

/-- The observable history of one buffer: the currently held collection and
the batches drained so far, in order. -/
structure BufferRun where
  held : List Nat
  batches : List (List Nat)
deriving DecidableEq, Repr

/-- Modelled from the spec: one atomic step on the buffer.  `add` appends
to the held collection; `drain` swaps the held collection for an empty one
and records the swapped-out copy as the flushed batch. -/
def stepOp (s : BufferRun) : BufferOp → BufferRun
  | .add j => { s with held := s.held ++ [j] }
  | .drain => { held := [], batches := s.batches ++ [s.held] }

/-- Running a whole interleaving of producer `add`s and flush drains. -/
def runOps (s : BufferRun) (ops : List BufferOp) : BufferRun :=
  ops.foldl stepOp s

/-- The jobs appended by the `add` operations of an interleaving, in order. -/
def addsOf (ops : List BufferOp) : List Nat :=
  ops.filterMap fun op =>
    match op with
    | .add j => some j
    | .drain => none

theorem addsOf_cons_add (k : Nat) (rest : List BufferOp) :
    addsOf (BufferOp.add k :: rest) = k :: addsOf rest := rfl

theorem addsOf_cons_drain (rest : List BufferOp) :
    addsOf (BufferOp.drain :: rest) = addsOf rest := rfl

/-- A job held after running an interleaving was either held initially or
appended by one of its `add` operations. -/
theorem mem_held_of_runOps (ops : List BufferOp) : ∀ (s : BufferRun) (j : Nat),
    j ∈ (runOps s ops).held → j ∈ s.held ∨ j ∈ addsOf ops := by
  induction ops with
  | nil => exact fun s j h => Or.inl h
  | cons op rest ih =>
    intro s j h
    have hstep : runOps s (op :: rest) = runOps (stepOp s op) rest := rfl
    rw [hstep] at h
    cases op with
    | add k =>
      rcases ih _ j h with h' | h'
      · rcases List.mem_append.mp h' with h'' | h''
        · exact Or.inl h''
        · right
          rw [addsOf_cons_add]
          simp only [List.mem_singleton] at h''
          simp [h'']
      · right
        rw [addsOf_cons_add]
        exact List.mem_cons_of_mem _ h'
    | drain =>
      rcases ih _ j h with h' | h'
      · exact absurd h' (List.not_mem_nil j)
      · right
        rw [addsOf_cons_drain]
        exact h'

/-- An interleaving with no drain leaves the batches untouched and appends
exactly its added jobs to the held collection. -/
theorem runOps_no_drain (ops : List BufferOp) : ∀ (s : BufferRun),
    BufferOp.drain ∉ ops → runOps s ops = ⟨s.held ++ addsOf ops, s.batches⟩ := by
  induction ops with
  | nil => intro s _; cases s; simp [runOps, addsOf]
  | cons op rest ih =>
    intro s hnd
    cases op with
    | add k =>
      have h1 : BufferOp.drain ∉ rest := fun hh => hnd (List.mem_cons_of_mem _ hh)
      have hstep : runOps s (BufferOp.add k :: rest) =
          runOps (stepOp s (BufferOp.add k)) rest := rfl
      rw [hstep, ih _ h1, addsOf_cons_add]
      simp [stepOp]
    | drain => exact absurd (List.mem_cons_self _ _) hnd

theorem mem_addsOf_iff (ops : List BufferOp) (j : Nat) :
    j ∈ addsOf ops ↔ BufferOp.add j ∈ ops := by
  constructor
  · intro h
    rcases List.mem_filterMap.mp h with ⟨op, hop, hsome⟩
    cases op with
    | add k =>
      simp only [Option.some_inj] at hsome
      rw [hsome] at hop
      exact hop
    | drain => exact absurd hsome (by simp)
  · intro h
    exact List.mem_filterMap.mpr ⟨BufferOp.add j, h, rfl⟩

/-- C2: flush atomicity.  For any interleaving `pre ++ drain :: post` in
which the job `j` is added only after the drain (and before any later
drain): the drained batch is exactly the collection held before the drain,
`j` is not in that batch, `j` is held afterwards (it was not lost), and the
next drain's batch contains `j` (it begins the next batch). -/
theorem flush_atomic_drain (pre post : List BufferOp) (j : Nat)
    (hfresh : BufferOp.add j ∉ pre)
    (hj : BufferOp.add j ∈ post)
    (hnod : BufferOp.drain ∉ post) :
    j ∉ (runOps ⟨[], []⟩ pre).held ∧
    (runOps ⟨[], []⟩ (pre ++ BufferOp.drain :: post)).batches =
      (runOps ⟨[], []⟩ pre).batches ++ [(runOps ⟨[], []⟩ pre).held] ∧
    j ∈ (runOps ⟨[], []⟩ (pre ++ BufferOp.drain :: post)).held ∧
    j ∈ ((runOps ⟨[], []⟩ ((pre ++ BufferOp.drain :: post) ++ [BufferOp.drain])).batches.getLast?.getD []) := by
  have hsplit : runOps ⟨[], []⟩ (pre ++ BufferOp.drain :: post) =
      runOps (stepOp (runOps ⟨[], []⟩ pre) BufferOp.drain) post := by
    simp [runOps, List.foldl_append]
  have hdrain : stepOp (runOps ⟨[], []⟩ pre) BufferOp.drain =
      ⟨[], (runOps ⟨[], []⟩ pre).batches ++ [(runOps ⟨[], []⟩ pre).held]⟩ := rfl
  have hpost := runOps_no_drain post
    (⟨[], (runOps ⟨[], []⟩ pre).batches ++ [(runOps ⟨[], []⟩ pre).held]⟩ : BufferRun) hnod
  have hfinal : runOps ⟨[], []⟩ (pre ++ BufferOp.drain :: post) =
      ⟨addsOf post, (runOps ⟨[], []⟩ pre).batches ++ [(runOps ⟨[], []⟩ pre).held]⟩ := by
    rw [hsplit, hdrain, hpost]
    simp
  have hnotheld : j ∉ (runOps ⟨[], []⟩ pre).held := by
    intro h
    rcases mem_held_of_runOps pre ⟨[], []⟩ j h with h' | h'
    · exact absurd h' (List.not_mem_nil j)
    · exact hfresh ((mem_addsOf_iff pre j).mp h')
  refine ⟨hnotheld, ?_, ?_, ?_⟩
  · rw [hfinal]
  · rw [hfinal]
    exact (mem_addsOf_iff post j).mpr hj
  · have hlast : runOps ⟨[], []⟩ ((pre ++ BufferOp.drain :: post) ++ [BufferOp.drain]) =
        stepOp (runOps ⟨[], []⟩ (pre ++ BufferOp.drain :: post)) BufferOp.drain := by
      simp [runOps, List.foldl_append]
    rw [hlast, hfinal]
    simp only [stepOp, List.getLast?_concat, Option.getD_some]
    exact (mem_addsOf_iff post j).mpr hj

/-- Witness for C2 at a concrete interleaving: job 2 is added while the
flush of the batch `[1]` is in progress; it is absent from that batch,
still held afterwards, and emitted by the next drain. -/
theorem flush_atomic_drain_witness :
    2 ∉ (runOps ⟨[], []⟩ [BufferOp.add 1]).held ∧
    (runOps ⟨[], []⟩ ([BufferOp.add 1] ++ BufferOp.drain :: [BufferOp.add 2])).batches =
      (runOps ⟨[], []⟩ [BufferOp.add 1]).batches ++ [(runOps ⟨[], []⟩ [BufferOp.add 1]).held] ∧
    2 ∈ (runOps ⟨[], []⟩ ([BufferOp.add 1] ++ BufferOp.drain :: [BufferOp.add 2])).held ∧
    2 ∈ ((runOps ⟨[], []⟩ (([BufferOp.add 1] ++ BufferOp.drain :: [BufferOp.add 2]) ++ [BufferOp.drain])).batches.getLast?.getD []) :=
  flush_atomic_drain [BufferOp.add 1] [BufferOp.add 2] 2 (by decide) (by decide) (by decide)

/-! ## Flush with a fallible reducer (modelled from the spec) -/

/-- Modelled from the spec: a buffer flush with a fallible `collect`
reducer.  The held batch is passed to `collect`; if `collect` fails, the
error is surfaced as the result and the held batch is retained unmodified;
if it succeeds, the collected jobs are the result and the buffer is
cleared.  (The flush coordinator itself is not among the sources.)  Returns
the flush outcome together with the buffer's held batch afterwards. -/
def flushWithCollect (collect : List Nat → Except String (List Nat))
    (held : List Nat) : Except String (List Nat) × List Nat :=
  match collect held with
  | .error e => (.error e, held)
  | .ok jobs => (.ok jobs, [])

/-- C6: if `collect` raises, the flush aborts with that error surfaced and
the held batch is left unchanged, so the next flush attempt sees the same
batch plus any newly added jobs. -/
theorem collect_error_keeps_batch (collect : List Nat → Except String (List Nat))
    (held : List Nat) (e : String) (h : collect held = .error e) :
    flushWithCollect collect held = (Except.error e, held) ∧
    ∀ newJobs : List Nat,
      (flushWithCollect collect held).2 ++ newJobs = held ++ newJobs := by
  have h1 : flushWithCollect collect held = (Except.error e, held) := by
    simp [flushWithCollect, h]
  exact ⟨h1, fun newJobs => by rw [h1]⟩

/-- Witness for C6: a reducer that always fails leaves the batch `[1, 2]`
in place and surfaces its error. -/
theorem collect_error_keeps_batch_witness :
    flushWithCollect (fun _ => Except.error "reducer failure") [1, 2] =
      (Except.error "reducer failure", [1, 2]) :=
  (collect_error_keeps_batch (fun _ => Except.error "reducer failure") [1, 2]
    "reducer failure" rfl).1

/-! ## Buffer registry and `submit` (modelled from the spec) -/

/-- A registered job buffer: its identity, its acceptance predicate, and
its held collection. -/
structure JobBuffer where
  id : String
  accepts : SearchJob → Bool
  held : List SearchJob

/-- Appending an accepted job to a buffer's held collection (`add`). -/
def addToBuffer (b : JobBuffer) (j : SearchJob) : JobBuffer :=
  { b with held := b.held ++ [j] }

/-- Modelled from the spec: the Buffer Registry's `submit` (the
`JobQueueService` internals are not among the sources).  It iterates the
registered buffers in registration order; the first buffer whose `accepts`
is true claims the job via `add` and the job is not forwarded to the
execution queue; if no buffer accepts, the job is submitted directly for
immediate execution.  Returns the updated buffer list and the list of jobs
passed straight to the execution queue. -/
def submitJob : List JobBuffer → SearchJob → List JobBuffer × List SearchJob
  | [], j => ([], [j])
  | b :: rest, j =>
    if b.accepts j then (addToBuffer b j :: rest, [])
    else
      let result := submitJob rest j
      (b :: result.1, result.2)

/-- An event handler's job submission, routed through the registry's
`submit`: the job descriptor produced by the subscription handler (if any)
is passed to `submitJob`; a handler that produces no job leaves the
registry and the execution queue untouched. -/
def handleEventThroughRegistry (bufs : List JobBuffer) (e : DomainEvent) :
    List JobBuffer × List SearchJob :=
  match handleEvent e with
  | none => (bufs, [])
  | some j => submitJob bufs j

/-- `submit` dichotomy: every submitted job is either executed immediately
(when no registered buffer accepts it, with all buffers unchanged) or
claimed by the first accepting buffer via `add` (and then not forwarded to
the execution queue). -/
theorem submitJob_claimed_or_executed (bufs : List JobBuffer) (j : SearchJob) :
    ((submitJob bufs j).2 = [j] ∧ (submitJob bufs j).1 = bufs ∧
      ∀ b ∈ bufs, b.accepts j = false) ∨
    ((submitJob bufs j).2 = [] ∧
      ∃ pre b post, bufs = pre ++ b :: post ∧ b.accepts j = true ∧
        (∀ b' ∈ pre, b'.accepts j = false) ∧
        (submitJob bufs j).1 = pre ++ addToBuffer b j :: post) := by
  induction bufs with
  | nil => exact Or.inl ⟨rfl, rfl, by simp⟩
  | cons b rest ih =>
    by_cases hacc : b.accepts j = true
    · right
      refine ⟨?_, [], b, rest, rfl, hacc, by simp, ?_⟩
      · simp [submitJob, hacc]
      · simp [submitJob, hacc]
    · have hfalse : b.accepts j = false := by
        cases hb : b.accepts j with
        | false => rfl
        | true => exact absurd hb hacc
      rcases ih with ⟨hex, hkeep, hnone⟩ | ⟨hex, pre, b', post, hsplit, hacc', hpre, hupd⟩
      · left
        refine ⟨?_, ?_, ?_⟩
        · simp [submitJob, hfalse, hex]
        · simp [submitJob, hfalse, hkeep]
        · intro b'' hb''
          rcases List.mem_cons.mp hb'' with h | h
          · rw [h]; exact hfalse
          · exact hnone b'' h
      · right
        refine ⟨?_, b :: pre, b', post, by rw [hsplit]; rfl, hacc', ?_, ?_⟩
        · simp [submitJob, hfalse, hex]
        · intro b'' hb''
          rcases List.mem_cons.mp hb'' with h | h
          · rw [h]; exact hfalse
          · exact hpre b'' h
        · simp [submitJob, hfalse, hupd]

/-- C3: every job produced by the three event subscriptions is routed
through the registry's `submit`, so it is either claimed and held by a
registered (accepting) buffer or executed immediately; a subscription that
produces no job submits nothing and changes nothing, so no handler
bypasses the registry. -/
theorem events_route_through_registry (bufs : List JobBuffer) (e : DomainEvent) :
    (handleEvent e = none → handleEventThroughRegistry bufs e = (bufs, [])) ∧
    ∀ j, handleEvent e = some j →
      ((handleEventThroughRegistry bufs e).2 = [j] ∧
        (handleEventThroughRegistry bufs e).1 = bufs ∧
        ∀ b ∈ bufs, b.accepts j = false) ∨
      ((handleEventThroughRegistry bufs e).2 = [] ∧
        ∃ pre b post, bufs = pre ++ b :: post ∧ b.accepts j = true ∧
          (∀ b' ∈ pre, b'.accepts j = false) ∧
          (handleEventThroughRegistry bufs e).1 = pre ++ addToBuffer b j :: post) := by
  constructor
  · intro h
    simp [handleEventThroughRegistry, h]
  · intro j h
    have hred : handleEventThroughRegistry bufs e = submitJob bufs j := by
      simp [handleEventThroughRegistry, h]
    rw [hred]
    exact submitJob_claimed_or_executed bufs j

/-- Witness for C3 at a concrete event and registry: with no buffer
registered, the collection-modification job is executed immediately. -/
theorem events_route_through_registry_witness :
    (handleEventThroughRegistry [] (DomainEvent.collectionModification [7])).2 =
      [SearchJob.updateVariantsById [7]] ∧
    (handleEventThroughRegistry [] (DomainEvent.collectionModification [7])).1 = [] := by
  have h := ((events_route_through_registry [] (DomainEvent.collectionModification [7])).2
    (SearchJob.updateVariantsById [7]) rfl)
  rcases h with ⟨h1, h2, _⟩ | ⟨_, pre, b, post, hsplit, _⟩
  · exact ⟨h1, h2⟩
  · exact absurd hsplit (by simp)

/-! ## Index-update reducer (modelled from the spec) -/

/-- The channel/language context carried by an index-update job. -/
structure JobCtx where
  channelId : Nat
  languageCode : String
deriving DecidableEq, Repr

/-- A buffered per-entity index-update job: update one product/variant, or
reindex everything. -/
inductive IndexUpdateJob where
  | updateEntity (ctx : JobCtx) (entityId : Nat)
  | reindexAll (ctx : JobCtx)
deriving DecidableEq, Repr

/-- A job emitted by the index-update reducer: one batch job per context
carrying the deduplicated affected ids, or the superseding reindex job. -/
inductive ReducedIndexJob where
  | updateBatch (ctx : JobCtx) (entityIds : List Nat)
  | reindexAll (ctx : JobCtx)
deriving DecidableEq, Repr

def isReindexAll : IndexUpdateJob → Bool
  | .reindexAll _ => true
  | .updateEntity _ _ => false

/-- The (context, entity id) pairs of the per-entity jobs of a batch, in
arrival order. -/
def entityPairs (batch : List IndexUpdateJob) : List (JobCtx × Nat) :=
  batch.filterMap fun j =>
    match j with
    | .updateEntity c i => some (c, i)
    | .reindexAll _ => none

/-- Deduplication by entity id keeping the first occurrence of each id
(later jobs for an already-covered id are dropped). -/
def dedupFirstById (seen : List Nat) : List (JobCtx × Nat) → List (JobCtx × Nat)
  | [] => []
  | p :: rest =>
    if p.2 ∈ seen then dedupFirstById seen rest
    else p :: dedupFirstById (p.2 :: seen) rest

/-- Modelled from the spec: the index-update reducer's `collect`
(`SearchIndexJobBuffer.collect` is not among the sources).  If the batch
contains a reindex-everything job, it alone supersedes all narrower jobs;
otherwise the per-entity jobs are deduplicated by entity id (first
occurrence wins) and collapsed into one batch job per distinct context,
each carrying the affected ids under that context. -/
def indexUpdateCollect (batch : List IndexUpdateJob) : List ReducedIndexJob :=
  match batch.find? isReindexAll with
  | some (.reindexAll c) => [.reindexAll c]
  | _ =>
    let pairs := dedupFirstById [] (entityPairs batch)
    ((pairs.map Prod.fst).dedup).map fun c =>
      .updateBatch c ((pairs.filter (fun p => p.1 == c)).map Prod.snd)

/-- The entity ids affected by one reduced job. -/
def reducedIds : ReducedIndexJob → List Nat
  | .updateBatch _ ids => ids
  | .reindexAll _ => []

/-- All entity ids affected by the reducer's output, in emission order. -/
def collectedIds (out : List ReducedIndexJob) : List Nat :=
  out.flatMap reducedIds

/-- All entity ids appearing in a batch of per-entity jobs. -/
def batchEntityIds (batch : List IndexUpdateJob) : List Nat :=
  (entityPairs batch).map Prod.snd

theorem mem_of_mem_dedupFirstById (l : List (JobCtx × Nat)) :
    ∀ (seen : List Nat) (p : JobCtx × Nat), p ∈ dedupFirstById seen l → p ∈ l := by
  induction l with
  | nil => intro seen p h; exact absurd h (List.not_mem_nil p)
  | cons q rest ih =>
    intro seen p h
    by_cases hq : q.2 ∈ seen
    · rw [dedupFirstById, if_pos hq] at h
      exact List.mem_cons_of_mem _ (ih seen p h)
    · rw [dedupFirstById, if_neg hq] at h
      rcases List.mem_cons.mp h with h' | h'
      · rw [h']; exact List.mem_cons_self _ _
      · exact List.mem_cons_of_mem _ (ih _ p h')

theorem mem_snd_dedupFirstById (l : List (JobCtx × Nat)) :
    ∀ (seen : List Nat) (i : Nat),
      i ∈ (dedupFirstById seen l).map Prod.snd ↔
        i ∉ seen ∧ i ∈ l.map Prod.snd := by
  induction l with
  | nil => intro seen i; simp [dedupFirstById]
  | cons q rest ih =>
    intro seen i
    by_cases hq : q.2 ∈ seen
    · rw [dedupFirstById, if_pos hq, ih]
      constructor
      · rintro ⟨h1, h2⟩
        exact ⟨h1, by simp only [List.map_cons, List.mem_cons]; exact Or.inr h2⟩
      · rintro ⟨h1, h2⟩
        simp only [List.map_cons, List.mem_cons] at h2
        rcases h2 with h2 | h2
        · rw [h2] at h1; exact absurd hq h1
        · exact ⟨h1, h2⟩
    · rw [dedupFirstById, if_neg hq]
      simp only [List.map_cons, List.mem_cons, ih]
      constructor
      · rintro (h | ⟨h1, h2⟩)
        · rw [h]; exact ⟨hq, Or.inl rfl⟩
        · have h1' : i ∉ seen := fun hh => h1 (Or.inr hh)
          exact ⟨h1', Or.inr h2⟩
      · rintro ⟨h1, h | h⟩
        · exact Or.inl h
        · by_cases hip : i = q.2
          · exact Or.inl hip
          · refine Or.inr ⟨?_, h⟩
            rintro (hh' | hh')
            · exact hip hh'
            · exact h1 hh'

theorem nodup_snd_dedupFirstById (l : List (JobCtx × Nat)) :
    ∀ seen : List Nat, ((dedupFirstById seen l).map Prod.snd).Nodup := by
  induction l with
  | nil => intro seen; simp [dedupFirstById]
  | cons q rest ih =>
    intro seen
    by_cases hq : q.2 ∈ seen
    · rw [dedupFirstById, if_pos hq]; exact ih seen
    · rw [dedupFirstById, if_neg hq]
      simp only [List.map_cons, List.nodup_cons]
      refine ⟨?_, ih _⟩
      intro hmem
      exact ((mem_snd_dedupFirstById rest _ q.2).mp hmem).1 (List.mem_cons_self _ _)

/-- C4: the index-update reducer.  With no reindex-everything job in the
batch, the emitted jobs' affected ids are exactly the distinct entity ids
of the batch with no id duplicated across the output, and every emitted
(context, id) pair comes from a buffered job with that context; if the
batch contains a reindex-everything job, the output is exactly one
reindex-everything job taken from the batch. -/
theorem indexUpdateCollect_spec (batch : List IndexUpdateJob) :
    ((∀ c, IndexUpdateJob.reindexAll c ∉ batch) →
      (∀ i, i ∈ collectedIds (indexUpdateCollect batch) ↔ i ∈ batchEntityIds batch) ∧
      (collectedIds (indexUpdateCollect batch)).Nodup ∧
      (∀ r ∈ indexUpdateCollect batch, ∃ c ids,
        r = ReducedIndexJob.updateBatch c ids ∧
        ∀ i ∈ ids, IndexUpdateJob.updateEntity c i ∈ batch)) ∧
    (∀ c, IndexUpdateJob.reindexAll c ∈ batch →
      ∃ c', indexUpdateCollect batch = [ReducedIndexJob.reindexAll c'] ∧
        IndexUpdateJob.reindexAll c' ∈ batch) := by
  constructor
  · intro hno
    have hfind : batch.find? isReindexAll = none := by
      rw [List.find?_eq_none]
      intro j hj hr
      cases j with
      | updateEntity c i => exact absurd hr (by simp [isReindexAll])
      | reindexAll c => exact hno c hj
    have hout : indexUpdateCollect batch =
        ((dedupFirstById [] (entityPairs batch)).map Prod.fst).dedup.map
          (fun c => ReducedIndexJob.updateBatch c
            (((dedupFirstById [] (entityPairs batch)).filter
              (fun p => p.1 == c)).map Prod.snd)) := by
      rw [indexUpdateCollect, hfind]
    have hmemgroup : ∀ (c : JobCtx) (i : Nat),
        i ∈ ((dedupFirstById [] (entityPairs batch)).filter
            (fun p => p.1 == c)).map Prod.snd ↔
          ∃ p ∈ dedupFirstById [] (entityPairs batch), p.1 = c ∧ p.2 = i := by
      intro c i
      constructor
      · intro h
        rcases List.mem_map.mp h with ⟨p, hp, hpi⟩
        rcases List.mem_filter.mp hp with ⟨hpd, hpc⟩
        exact ⟨p, hpd, by simpa using hpc, hpi⟩
      · rintro ⟨p, hpd, hpc, hpi⟩
        exact List.mem_map.mpr ⟨p, List.mem_filter.mpr ⟨hpd, by simpa using hpc⟩, hpi⟩
    have hmemout : ∀ i, i ∈ collectedIds (indexUpdateCollect batch) ↔
        ∃ p ∈ dedupFirstById [] (entityPairs batch), p.2 = i := by
      intro i
      rw [hout]
      constructor
      · intro h
        rcases List.mem_flatMap.mp h with ⟨r, hr, hir⟩
        rcases List.mem_map.mp hr with ⟨c, _, hrc⟩
        rw [← hrc] at hir
        rcases (hmemgroup c i).mp hir with ⟨p, hpd, _, hpi⟩
        exact ⟨p, hpd, hpi⟩
      · rintro ⟨p, hpd, hpi⟩
        have hc : p.1 ∈ ((dedupFirstById [] (entityPairs batch)).map Prod.fst).dedup :=
          List.mem_dedup.mpr (List.mem_map.mpr ⟨p, hpd, rfl⟩)
        refine List.mem_flatMap.mpr ⟨ReducedIndexJob.updateBatch p.1
          (((dedupFirstById [] (entityPairs batch)).filter
            (fun q => q.1 == p.1)).map Prod.snd), List.mem_map.mpr ⟨p.1, hc, rfl⟩, ?_⟩
        exact (hmemgroup p.1 i).mpr ⟨p, hpd, rfl, hpi⟩
    refine ⟨?_, ?_, ?_⟩
    · intro i
      rw [hmemout i]
      constructor
      · rintro ⟨p, hpd, hpi⟩
        have : p.2 ∈ (dedupFirstById [] (entityPairs batch)).map Prod.snd :=
          List.mem_map.mpr ⟨p, hpd, rfl⟩
        have h2 := ((mem_snd_dedupFirstById (entityPairs batch) [] p.2).mp this).2
        rw [hpi] at h2
        exact h2
      · intro h
        have h2 : i ∈ (dedupFirstById [] (entityPairs batch)).map Prod.snd :=
          (mem_snd_dedupFirstById (entityPairs batch) [] i).mpr
            ⟨List.not_mem_nil i, h⟩
        rcases List.mem_map.mp h2 with ⟨p, hpd, hpi⟩
        exact ⟨p, hpd, hpi⟩
    · rw [hout, collectedIds, List.nodup_flatMap]
      constructor
      · intro r hr
        rcases List.mem_map.mp hr with ⟨c, _, hrc⟩
        rw [← hrc, reducedIds]
        exact List.Nodup.sublist
          ((List.filter_sublist _).map Prod.snd)
          (nodup_snd_dedupFirstById (entityPairs batch) [])
      · rw [List.pairwise_map]
        have hnd : (((dedupFirstById [] (entityPairs batch)).map Prod.fst).dedup).Pairwise
            (fun a b => a ≠ b) := List.nodup_dedup _
        refine hnd.imp ?_
        intro c c' hcc
        intro i hic hic'
        rw [reducedIds] at hic hic'
        rcases (hmemgroup c i).mp hic with ⟨p, hpd, hpc, hpi⟩
        rcases (hmemgroup c' i).mp hic' with ⟨q, hqd, hqc, hqi⟩
        have hpq : p = q := by
          apply List.inj_on_of_nodup_map
            (nodup_snd_dedupFirstById (entityPairs batch) []) hpd hqd
          rw [hpi, hqi]
        rw [hpq] at hpc
        rw [hpc] at hqc
        exact hcc hqc
    · intro r hr
      rw [hout] at hr
      rcases List.mem_map.mp hr with ⟨c, _, hrc⟩
      refine ⟨c, _, hrc.symm, ?_⟩
      intro i hi
      rcases (hmemgroup c i).mp hi with ⟨p, hpd, hpc, hpi⟩
      have hp : p ∈ entityPairs batch :=
        mem_of_mem_dedupFirstById (entityPairs batch) [] p hpd
      rcases List.mem_filterMap.mp hp with ⟨j, hj, hjp⟩
      cases j with
      | updateEntity c0 i0 =>
        simp only [Option.some_inj] at hjp
        have hc0 : c0 = c := by rw [← hpc, ← hjp]
        have hi0 : i0 = i := by rw [← hpi, ← hjp]
        rw [← hc0, ← hi0]
        exact hj
      | reindexAll c0 => exact absurd hjp (by simp)
  · intro c hc
    have hsome : (batch.find? isReindexAll).isSome = true :=
      List.find?_isSome.mpr ⟨IndexUpdateJob.reindexAll c, hc, rfl⟩
    rcases Option.isSome_iff_exists.mp hsome with ⟨j, hj⟩
    have hjr : isReindexAll j = true := List.find?_some hj
    cases j with
    | updateEntity c0 i0 => exact absurd hjr (by simp [isReindexAll])
    | reindexAll c0 =>
      refine ⟨c0, ?_, List.mem_of_find?_eq_some hj⟩
      rw [indexUpdateCollect, hj]

/-- Witness for C4: ids {1, 2, 1, 3} in one context collapse to exactly
{1, 2, 3} with no duplicates, and a batch containing a reindex-everything
job reduces to that job alone. -/
theorem indexUpdateCollect_spec_witness :
    (3 ∈ collectedIds (indexUpdateCollect
        [IndexUpdateJob.updateEntity ⟨1, "en"⟩ 1,
         IndexUpdateJob.updateEntity ⟨1, "en"⟩ 2,
         IndexUpdateJob.updateEntity ⟨1, "en"⟩ 1,
         IndexUpdateJob.updateEntity ⟨1, "en"⟩ 3]) ↔
      3 ∈ batchEntityIds
        [IndexUpdateJob.updateEntity ⟨1, "en"⟩ 1,
         IndexUpdateJob.updateEntity ⟨1, "en"⟩ 2,
         IndexUpdateJob.updateEntity ⟨1, "en"⟩ 1,
         IndexUpdateJob.updateEntity ⟨1, "en"⟩ 3]) ∧
    (collectedIds (indexUpdateCollect
        [IndexUpdateJob.updateEntity ⟨1, "en"⟩ 1,
         IndexUpdateJob.updateEntity ⟨1, "en"⟩ 2,
         IndexUpdateJob.updateEntity ⟨1, "en"⟩ 1,
         IndexUpdateJob.updateEntity ⟨1, "en"⟩ 3])).Nodup ∧
    (∃ c', indexUpdateCollect
        [IndexUpdateJob.reindexAll ⟨1, "en"⟩,
         IndexUpdateJob.updateEntity ⟨1, "en"⟩ 5] =
        [ReducedIndexJob.reindexAll c'] ∧
      IndexUpdateJob.reindexAll c' ∈
        [IndexUpdateJob.reindexAll ⟨1, "en"⟩,
         IndexUpdateJob.updateEntity ⟨1, "en"⟩ 5]) := by
  have hno : ∀ c, IndexUpdateJob.reindexAll c ∉
      [IndexUpdateJob.updateEntity ⟨1, "en"⟩ 1,
       IndexUpdateJob.updateEntity ⟨1, "en"⟩ 2,
       IndexUpdateJob.updateEntity ⟨1, "en"⟩ 1,
       IndexUpdateJob.updateEntity ⟨1, "en"⟩ 3] := by
    intro c hc
    simp at hc
  refine ⟨((indexUpdateCollect_spec _).1 hno).1 3,
    ((indexUpdateCollect_spec _).1 hno).2.1,
    (indexUpdateCollect_spec _).2 ⟨1, "en"⟩ (by simp)⟩

/-! ## Collection-filter reducer (modelled from the spec) -/

/-- The collection hierarchy as (child id, parent id) records; a collection
absent as a key is a root. -/
def lookupParent (hierarchy : List (Nat × Nat)) (c : Nat) : Option Nat :=
  (hierarchy.find? (fun p => p.1 == c)).map Prod.snd

/-- Fuel-bounded depth of a collection in the hierarchy: a root has depth
0, a child is one deeper than its parent; `none` when the fuel is
exhausted before a root is reached. -/
def depthAux (hierarchy : List (Nat × Nat)) : Nat → Nat → Option Nat
  | 0, _ => none
  | fuel + 1, c =>
    match lookupParent hierarchy c with
    | none => some 0
    | some p => (depthAux hierarchy fuel p).map (· + 1)

/-- Depth of a collection, with fuel bounded by the hierarchy size. -/
def collectionDepthOpt (hierarchy : List (Nat × Nat)) (c : Nat) : Option Nat :=
  depthAux hierarchy (hierarchy.length + 1) c

/-- Total depth used for ordering; a non-terminating parent chain reads as
depth 0. -/
def collectionDepth (hierarchy : List (Nat × Nat)) (c : Nat) : Nat :=
  (collectionDepthOpt hierarchy c).getD 0

/-- Modelled from the spec: the collection-filter reducer's `collect`
(`CollectionJobBuffer.collect` is not among the sources).  The buffered
recompute jobs are collapsed to one job per distinct collection id and the
emitted jobs are ordered by hierarchy depth, shallowest first. -/
def collectionFilterCollect (hierarchy : List (Nat × Nat)) (batch : List Nat) : List Nat :=
  (batch.dedup).mergeSort fun a b =>
    decide (collectionDepth hierarchy a ≤ collectionDepth hierarchy b)

theorem depthAux_fuel_mono (hierarchy : List (Nat × Nat)) :
    ∀ (fuel c d : Nat), depthAux hierarchy fuel c = some d →
      depthAux hierarchy (fuel + 1) c = some d := by
  intro fuel
  induction fuel with
  | zero => intro c d h; exact absurd h (by simp [depthAux])
  | succ n ih =>
    intro c d h
    rw [depthAux] at h
    cases hp : lookupParent hierarchy c with
    | none =>
      rw [hp] at h
      rw [depthAux, hp]
      exact h
    | some p =>
      rw [hp] at h
      have h' : Option.map (· + 1) (depthAux hierarchy n p) = some d := h
      rcases Option.map_eq_some'.mp h' with ⟨dp, hdp, hd⟩
      rw [depthAux, hp]
      show Option.map (· + 1) (depthAux hierarchy (n + 1) p) = some d
      rw [ih p dp hdp]
      simp [hd]

/-- A collection whose depth converges is strictly deeper than its parent. -/
theorem collectionDepth_parent_lt (hierarchy : List (Nat × Nat)) (c p dC : Nat)
    (hpar : lookupParent hierarchy c = some p)
    (hconv : collectionDepthOpt hierarchy c = some dC) :
    collectionDepthOpt hierarchy p = some (dC - 1) ∧
      collectionDepth hierarchy p < collectionDepth hierarchy c := by
  have hc1 : collectionDepthOpt hierarchy c = some dC := hconv
  rw [collectionDepthOpt, depthAux, hpar] at hconv
  have hconv' : Option.map (· + 1) (depthAux hierarchy hierarchy.length p) = some dC :=
    hconv
  rcases Option.map_eq_some'.mp hconv' with ⟨dp, hdp, hd⟩
  have hp1 : collectionDepthOpt hierarchy p = some dp :=
    depthAux_fuel_mono hierarchy _ p dp hdp
  constructor
  · rw [hp1]
    congr 1
    omega
  · rw [collectionDepth, collectionDepth, hp1, hc1]
    simp
    omega

/-- C5: the collection-filter reducer emits at most one job per distinct
collection id (exactly the distinct ids of the batch), the emitted jobs
are ordered by hierarchy depth shallowest first, and for a child
collection C of parent P both in the batch (with C's ancestor chain
well-founded) the job for P precedes the job for C. -/
theorem collectionFilterCollect_spec (hierarchy : List (Nat × Nat)) (batch : List Nat) :
    (collectionFilterCollect hierarchy batch).Nodup ∧
    (∀ c, c ∈ collectionFilterCollect hierarchy batch ↔ c ∈ batch) ∧
    (collectionFilterCollect hierarchy batch).Pairwise
      (fun a b => collectionDepth hierarchy a ≤ collectionDepth hierarchy b) ∧
    (∀ P C dC, lookupParent hierarchy C = some P →
      collectionDepthOpt hierarchy C = some dC →
      P ∈ batch → C ∈ batch →
      ∃ i j : Fin (collectionFilterCollect hierarchy batch).length,
        i < j ∧ (collectionFilterCollect hierarchy batch).get i = P ∧
          (collectionFilterCollect hierarchy batch).get j = C) := by
  have hperm : (collectionFilterCollect hierarchy batch).Perm batch.dedup :=
    List.mergeSort_perm batch.dedup _
  have hsorted : (collectionFilterCollect hierarchy batch).Pairwise
      (fun a b =>
        decide (collectionDepth hierarchy a ≤ collectionDepth hierarchy b) = true) := by
    apply List.sorted_mergeSort
    · intro a b c hab hbc
      simp only [decide_eq_true_eq] at *
      omega
    · intro a b
      simp only [Bool.or_eq_true, decide_eq_true_eq]
      omega
  have hmem : ∀ c, c ∈ collectionFilterCollect hierarchy batch ↔ c ∈ batch := by
    intro c
    rw [hperm.mem_iff, List.mem_dedup]
  refine ⟨hperm.symm.nodup (List.nodup_dedup batch), hmem, ?_, ?_⟩
  · exact hsorted.imp fun hab => by simpa using hab
  · intro P C dC hpar hconv hP hC
    have hlt : collectionDepth hierarchy P < collectionDepth hierarchy C :=
      (collectionDepth_parent_lt hierarchy C P dC hpar hconv).2
    have hPC : P ≠ C := fun h => by rw [h] at hlt; omega
    rcases List.mem_iff_get.mp ((hmem P).mpr hP) with ⟨i, hi⟩
    rcases List.mem_iff_get.mp ((hmem C).mpr hC) with ⟨j, hj⟩
    have hij : i ≠ j := by
      intro h
      rw [h, hj] at hi
      exact hPC hi.symm
    rcases lt_trichotomy i j with hlt' | heq | hgt
    · exact ⟨i, j, hlt', hi, hj⟩
    · exact absurd heq hij
    · have hrel := List.pairwise_iff_get.mp hsorted j i hgt
      rw [hi, hj, decide_eq_true_eq] at hrel
      omega

/-- Witness for C5 at a concrete hierarchy (collection 2 is a child of
collection 1) and batch {2, 1, 2}: the parent's job precedes the child's. -/
theorem collectionFilterCollect_spec_witness :
    ∃ i j : Fin (collectionFilterCollect [(2, 1)] [2, 1, 2]).length,
      i < j ∧ (collectionFilterCollect [(2, 1)] [2, 1, 2]).get i = 1 ∧
        (collectionFilterCollect [(2, 1)] [2, 1, 2]).get j = 2 :=
  (collectionFilterCollect_spec [(2, 1)] [2, 1, 2]).2.2.2 1 2 1
    (by decide) (by decide) (by decide) (by decide)

end EcoMentor
